import Mathlib

/-!
# Verification of the m-onz-av pattern parser

A shallow embedding of `src/lib/parser2.js` (the pattern compiler,
transformation engine and sequence utilities) together with the
auxiliary value-level functions it relies on (`parseInt`, `isNaN`,
`String.prototype.split`, `Array.prototype.join`, the tokenizing
regular expression).  JavaScript numbers that occur as note values are
modelled as exact integers (`Int`); the floating-point value `NaN`,
which the parser can push into a sequence, is modelled by a dedicated
constructor.  `Math.random()` is modelled as a stream `Nat → ℚ` of
draws together with an explicit position counter that every consumer
threads.
-/

namespace MonzAV

/-! ## Character classes (JavaScript semantics) -/

/-- Digits `[0-9]`, the characters recognised by `parseInt` and by `\d`. -/
def isDigitCh (c : Char) : Bool := 48 ≤ c.toNat && c.toNat ≤ 57

/-- Lowercase letters `[a-z]`, the run captured by the transform-name regex. -/
def isLowerCh (c : Char) : Bool := 97 ≤ c.toNat && c.toNat ≤ 122

/-- Word characters `\w`, i.e. `[A-Za-z0-9_]`. -/
def isWordCh (c : Char) : Bool :=
  (65 ≤ c.toNat && c.toNat ≤ 90) || (97 ≤ c.toNat && c.toNat ≤ 122) ||
  isDigitCh c || c.toNat = 95

/-- JavaScript `\s` (whitespace): the ASCII white space characters
together with NBSP, the Unicode line separators and the BOM. -/
def isWsCh (c : Char) : Bool :=
  (9 ≤ c.toNat && c.toNat ≤ 13) || c.toNat = 32 || c.toNat = 160 ||
  c.toNat = 0x2028 || c.toNat = 0x2029 || c.toNat = 0xFEFF

/-- A separator for the tokenizing regex `[^,;\s]+`: comma, semicolon
or whitespace. -/
def isSepCh (c : Char) : Bool := c = ',' || c = ';' || isWsCh c

/-- A character matched by `.` in a JavaScript regex (anything except
a line terminator). -/
def isDotCh (c : Char) : Bool :=
  !(c.toNat = 10 || c.toNat = 13 || c.toNat = 0x2028 || c.toNat = 0x2029)

/-! ## Decimal numerals: printing and parsing

`String(n)` for an integral JavaScript number prints the usual decimal
numeral; `parseInt` reads an optional sign followed by leading decimal
digits (with `0x` switching to hexadecimal).  We build the printer from
`Nat.digits` so that Mathlib's `Nat.ofDigits_digits` gives the
round-trip. -/

/-- The character for a single decimal digit value. -/
def digitCh (d : Nat) : Char := Char.ofNat (48 + d)

/-- Decimal numeral of a natural number, as `String(n)` prints it. -/
def natReprChars (n : Nat) : List Char :=
  if n = 0 then ['0'] else ((Nat.digits 10 n).reverse.map digitCh)

/-- Decimal numeral of an integer, as `String(n)` prints it for
`|n| < 10 ^ 21`: plain decimal digits with an optional leading minus.
JavaScript switches to exponential notation (`1e+21`) at `10 ^ 21`, so
theorems that rely on this printer being `String(n)` restrict their
integers to the safe range. -/
def intReprChars (i : Int) : List Char :=
  if i < 0 then '-' :: natReprChars i.natAbs else natReprChars i.toNat

/-- Value of a list of decimal digit characters, most significant
first (the accumulator loop any decimal scanner performs). -/
def parseNatDigits (l : List Char) : Nat :=
  l.foldl (fun a c => 10 * a + (c.toNat - 48)) 0

theorem digitCh_toNat {d : Nat} (h : d < 10) : (digitCh d).toNat = 48 + d := by
  interval_cases d <;> decide

theorem isDigitCh_digitCh {d : Nat} (h : d < 10) : isDigitCh (digitCh d) = true := by
  simp [isDigitCh, digitCh_toNat h]
  omega

theorem natReprChars_ne_nil (n : Nat) : natReprChars n ≠ [] := by
  unfold natReprChars
  split
  · simp
  · rename_i h
    have h10 : Nat.digits 10 n ≠ [] := Nat.digits_ne_nil_iff_ne_zero.mpr h
    simp [h10]

theorem natReprChars_all_digits (n : Nat) :
    ∀ c ∈ natReprChars n, isDigitCh c = true := by
  intro c hc
  unfold natReprChars at hc
  split at hc
  · simp at hc
    simp [hc, isDigitCh, digitCh]
  · simp only [List.mem_map, List.mem_reverse] at hc
    obtain ⟨d, hd, rfl⟩ := hc
    exact isDigitCh_digitCh (Nat.digits_lt_base (by norm_num) hd)

theorem parseNatDigits_append (l₁ l₂ : List Char) :
    parseNatDigits (l₁ ++ l₂) =
      l₂.foldl (fun a c => 10 * a + (c.toNat - 48)) (parseNatDigits l₁) := by
  simp [parseNatDigits, List.foldl_append]

/-- Folding the digit accumulator over the reversed digit list gives
`Nat.ofDigits`. -/
theorem foldl_digits_eq_ofDigits (L : List Nat) (hL : ∀ d ∈ L, d < 10) :
    (L.reverse.map digitCh).foldl (fun a c => 10 * a + (c.toNat - 48)) 0 =
      Nat.ofDigits 10 L := by
  induction L with
  | nil => simp [Nat.ofDigits]
  | cons d L ih =>
      have hd : d < 10 := hL d (by simp)
      have hL' : ∀ x ∈ L, x < 10 := fun x hx => hL x (by simp [hx])
      simp only [List.reverse_cons, List.map_append, List.foldl_append,
        List.map_cons, List.map_nil, List.foldl_cons, List.foldl_nil]
      rw [ih hL', digitCh_toNat hd, Nat.ofDigits_cons]
      omega

theorem parseNatDigits_natReprChars (n : Nat) :
    parseNatDigits (natReprChars n) = n := by
  unfold natReprChars parseNatDigits
  split
  · rename_i h
    simp [h]
  · rw [foldl_digits_eq_ofDigits _ (fun d hd => Nat.digits_lt_base (by norm_num) hd)]
    exact Nat.ofDigits_digits 10 n

/-! ## JavaScript `parseInt` and `isNaN` on strings -/

/-- Hexadecimal digit test, for `parseInt`'s automatic `0x` radix. -/
def isHexDigitCh (c : Char) : Bool :=
  isDigitCh c || (97 ≤ c.toNat && c.toNat ≤ 102) || (65 ≤ c.toNat && c.toNat ≤ 70)

/-- Value of a hexadecimal digit character. -/
def hexVal (c : Char) : Nat :=
  if isDigitCh c then c.toNat - 48
  else if 97 ≤ c.toNat then c.toNat - 87 else c.toNat - 55

/-- Value of a list of hexadecimal digit characters, most significant
first. -/
def parseHexDigits (l : List Char) : Nat :=
  l.foldl (fun a c => 16 * a + hexVal c) 0

/-- Whether a string starts with a `0x`/`0X` hexadecimal prefix. -/
def hexMark (r : List Char) : Bool :=
  r.head? = some '0' && (r.tail.head? = some 'x' || r.tail.head? = some 'X')

/-- Read an optional leading sign: returns (is-negative, rest). -/
def signSplit (t : List Char) : Bool × List Char :=
  if t.head? = some '-' then (true, t.tail)
  else if t.head? = some '+' then (false, t.tail) else (false, t)

/-- The digit-scanning core of `parseInt`: a `0x` prefix switches to
hexadecimal, otherwise leading decimal digits are read; no digits
means `NaN`. -/
def parseIntCore (r : List Char) : Option Nat :=
  if hexMark r then
    let ds := (r.tail.tail).takeWhile isHexDigitCh
    if ds.isEmpty then none else some (parseHexDigits ds)
  else
    let ds := r.takeWhile isDigitCh
    if ds.isEmpty then none else some (parseNatDigits ds)

/-- Model of `parseInt(s)` (no radix argument): skip leading whitespace, read an
optional sign, detect a `0x`/`0X` prefix, then read leading digits;
`none` models the result `NaN`.  The model keeps the exact integer of
the digit run, where JavaScript rounds it to the nearest double; the
two agree on failure (`NaN` does not depend on magnitude) and on every
value up to `2 ^ 53`, so theorems about the parsed value restrict to
safe integers. -/
def jsParseIntChars (l : List Char) : Option Int :=
  (parseIntCore (signSplit (l.dropWhile isWsCh)).2).map
    (fun n => if (signSplit (l.dropWhile isWsCh)).1 then -(n : Int) else (n : Int))

/-- JavaScript-safe integers, `|n| ≤ 2 ^ 53`: exactly the range on
which every integer is an exact double, `String(n)` prints the plain
decimal numeral (exponential notation starts at `10 ^ 21`), and
`parseInt` recovers the value without rounding. -/
def jsSafeInt (n : Int) : Prop := n.natAbs ≤ 2 ^ 53

instance (n : Int) : Decidable (jsSafeInt n) :=
  inferInstanceAs (Decidable (n.natAbs ≤ 2 ^ 53))

/-- Model of `String.prototype.trim`: strip JavaScript whitespace at both ends. -/
def trimChars (l : List Char) : List Char :=
  ((l.dropWhile isWsCh).reverse.dropWhile isWsCh).reverse

/-- Strip one optional sign character. -/
def stripSign (l : List Char) : List Char :=
  if l.head? = some '-' || l.head? = some '+' then l.tail else l

/-- The optional-exponent tail of a JavaScript decimal literal:
either nothing, or `e`/`E`, an optional sign and at least one digit,
consuming the whole rest. -/
def expOk : List Char → Bool
  | [] => true
  | e :: r =>
      (e = 'e' || e = 'E') &&
      (let r' := stripSign r
       !(r'.takeWhile isDigitCh).isEmpty && (r'.dropWhile isDigitCh).isEmpty)

/-- An unsigned JavaScript decimal literal:
`digits [. digits] [exp]` or `. digits [exp]`, consuming everything. -/
def decimalB (r : List Char) : Bool :=
  let d1 := r.takeWhile isDigitCh
  let r1 := r.dropWhile isDigitCh
  if d1.isEmpty then
    match r1 with
    | '.' :: r2 =>
        !(r2.takeWhile isDigitCh).isEmpty && expOk (r2.dropWhile isDigitCh)
    | _ => false
  else
    match r1 with
    | '.' :: r2 => expOk (r2.dropWhile isDigitCh)
    | _ => expOk r1

/-- A `0x`/`0o`/`0b` numeric literal (no sign allowed). -/
def radixLiteralB (t : List Char) : Bool :=
  if t.head? = some '0' then
    let x := t.tail.head?
    let r := t.tail.tail
    if x = some 'x' || x = some 'X' then !r.isEmpty && r.all isHexDigitCh
    else if x = some 'o' || x = some 'O' then
      !r.isEmpty && r.all (fun c => 48 ≤ c.toNat && c.toNat ≤ 55)
    else if x = some 'b' || x = some 'B' then
      !r.isEmpty && r.all (fun c => c = '0' || c = '1')
    else false
  else false

/-- Model of `!isNaN(s)` for a string `s`: whether `Number(s)` is a number.
The empty (or all-whitespace) string converts to `0`; otherwise the
trimmed text must be a radix literal or a signed decimal literal or a
signed `Infinity`. -/
def jsIsNumericChars (l : List Char) : Bool :=
  let t := trimChars l
  t.isEmpty || radixLiteralB t ||
  (let r := stripSign t
   r = "Infinity".toList || decimalB r)

/-! ### The numeral round trip through `parseInt` and `isNaN` -/

theorem isDigitCh_not_ws {c : Char} (h : isDigitCh c = true) : isWsCh c = false := by
  simp [isDigitCh] at h
  simp [isWsCh]
  omega

theorem isDigitCh_not_sep {c : Char} (h : isDigitCh c = true) : isSepCh c = false := by
  have hw := isDigitCh_not_ws h
  simp [isDigitCh] at h
  simp [isSepCh, hw]
  constructor <;> (intro hc; subst hc; revert h; decide)

theorem takeWhile_all {p : Char → Bool} {l : List Char}
    (h : ∀ c ∈ l, p c = true) : l.takeWhile p = l := by
  induction l with
  | nil => rfl
  | cons c cs ih =>
      rw [List.takeWhile_cons, h c (by simp)]
      simp [ih (fun x hx => h x (by simp [hx]))]

theorem dropWhile_all {p : Char → Bool} {l : List Char}
    (h : ∀ c ∈ l, p c = true) : l.dropWhile p = [] := by
  induction l with
  | nil => rfl
  | cons c cs ih =>
      rw [List.dropWhile_cons, h c (by simp)]
      simp [ih (fun x hx => h x (by simp [hx]))]

theorem dropWhile_head_false {p : Char → Bool} {c : Char} {cs : List Char}
    (h : p c = false) : (c :: cs).dropWhile p = c :: cs := by
  simp [List.dropWhile_cons, h]

theorem takeWhile_head_false {p : Char → Bool} {c : Char} {cs : List Char}
    (h : p c = false) : (c :: cs).takeWhile p = [] := by
  simp [List.takeWhile_cons, h]

/-- A nonempty list whose characters are all non-whitespace is fixed
by `trimChars`. -/
theorem trimChars_no_ws {l : List Char} (h : ∀ c ∈ l, isWsCh c = false) :
    trimChars l = l := by
  unfold trimChars
  have h1 : l.dropWhile isWsCh = l := by
    cases l with
    | nil => rfl
    | cons c cs => exact dropWhile_head_false (h c (by simp))
  rw [h1]
  have h2 : l.reverse.dropWhile isWsCh = l.reverse := by
    cases hr : l.reverse with
    | nil => rfl
    | cons c cs =>
        refine dropWhile_head_false (h c ?_)
        have : c ∈ l.reverse := by rw [hr]; simp
        simpa using this
  rw [h2, List.reverse_reverse]

theorem natReprChars_head_digit (n : Nat) :
    ∃ c cs, natReprChars n = c :: cs ∧ isDigitCh c = true := by
  cases h : natReprChars n with
  | nil => exact absurd h (natReprChars_ne_nil n)
  | cons c cs =>
      refine ⟨c, cs, rfl, natReprChars_all_digits n c ?_⟩
      rw [h]; simp

theorem digit_ne_minus {c : Char} (h : isDigitCh c = true) : c ≠ '-' := by
  intro hc; subst hc; exact absurd h (by decide)

theorem digit_ne_plus {c : Char} (h : isDigitCh c = true) : c ≠ '+' := by
  intro hc; subst hc; exact absurd h (by decide)

/-- On an all-digit string the `0x` prefix test fails: the second
character, when present, is a digit and hence not `x`/`X`. -/
theorem hexMark_digits {l : List Char}
    (hall : ∀ c ∈ l, isDigitCh c = true) : hexMark l = false := by
  unfold hexMark
  cases l with
  | nil => rfl
  | cons c cs =>
      cases cs with
      | nil => simp
      | cons d ds =>
          have hd : isDigitCh d = true := hall d (by simp)
          have h1 : d ≠ 'x' := by
            intro hc; subst hc; exact absurd hd (by decide)
          have h2 : d ≠ 'X' := by
            intro hc; subst hc; exact absurd hd (by decide)
          simp [h1, h2]

/-- Fact: `signSplit` is trivial on a string that starts with a digit. -/
theorem signSplit_digit_head {c : Char} {cs : List Char}
    (h : isDigitCh c = true) : signSplit (c :: cs) = (false, c :: cs) := by
  unfold signSplit
  rw [if_neg (by simp [digit_ne_minus h]), if_neg (by simp [digit_ne_plus h])]

/-- The core scanner on a nonempty all-digit string. -/
theorem parseIntCore_digits {l : List Char} (hne : l ≠ [])
    (hall : ∀ c ∈ l, isDigitCh c = true) :
    parseIntCore l = some (parseNatDigits l) := by
  unfold parseIntCore
  rw [hexMark_digits hall]
  simp only [Bool.false_eq_true, if_false]
  rw [takeWhile_all hall]
  simp [hne]

/-- Fact: `parseInt` succeeds on any nonempty all-digit string and returns
its decimal value. -/
theorem jsParseIntChars_digits {l : List Char} (hne : l ≠ [])
    (hall : ∀ c ∈ l, isDigitCh c = true) :
    jsParseIntChars l = some ((parseNatDigits l : Nat) : Int) := by
  obtain ⟨c, cs, rfl⟩ : ∃ c cs, l = c :: cs := by
    cases l with
    | nil => exact absurd rfl hne
    | cons c cs => exact ⟨c, cs, rfl⟩
  have hcdig : isDigitCh c = true := hall c (by simp)
  unfold jsParseIntChars
  rw [dropWhile_head_false (isDigitCh_not_ws hcdig), signSplit_digit_head hcdig]
  rw [parseIntCore_digits (by simp) hall]
  rfl

/-- Fact: `parseInt` of the decimal numeral of a natural number. -/
theorem jsParseIntChars_natRepr (n : Nat) :
    jsParseIntChars (natReprChars n) = some (n : Int) := by
  rw [jsParseIntChars_digits (natReprChars_ne_nil n) (natReprChars_all_digits n),
    parseNatDigits_natReprChars]

/-- Fact: `parseInt` of the decimal numeral of an integer. -/
theorem jsParseIntChars_intRepr (i : Int) :
    jsParseIntChars (intReprChars i) = some i := by
  unfold intReprChars
  split
  · rename_i hneg
    have hall := natReprChars_all_digits i.natAbs
    obtain ⟨c, cs, hrepr, hcdig⟩ := natReprChars_head_digit i.natAbs
    unfold jsParseIntChars
    rw [hrepr] at hall ⊢
    rw [dropWhile_head_false (by decide)]
    have hsign : signSplit ('-' :: c :: cs) = (true, c :: cs) := by
      unfold signSplit
      rw [if_pos (by simp)]
      simp
    rw [hsign, parseIntCore_digits (by simp) hall]
    have hv : parseNatDigits (c :: cs) = i.natAbs := by
      rw [← hrepr, parseNatDigits_natReprChars]
    have habs : ((i.natAbs : Nat) : Int) = -i := by omega
    simp [hv, habs]
  · rename_i hpos
    rw [jsParseIntChars_natRepr]
    congr 1
    omega

/-- Fact: `Number(s)` of the decimal numeral of an integer is not `NaN`. -/
theorem jsIsNumericChars_intRepr (i : Int) :
    jsIsNumericChars (intReprChars i) = true := by
  have halln := natReprChars_all_digits i.natAbs
  have hallp := natReprChars_all_digits i.toNat
  have key : ∀ (l : List Char), l ≠ [] → (∀ c ∈ l, isDigitCh c = true) →
      decimalB l = true := by
    intro l hne hall
    unfold decimalB
    rw [takeWhile_all hall, dropWhile_all hall]
    simp [hne, expOk]
  unfold intReprChars
  split
  · -- negative: '-' followed by digits
    obtain ⟨c, cs, hrepr, hcdig⟩ := natReprChars_head_digit i.natAbs
    unfold jsIsNumericChars
    rw [hrepr] at halln ⊢
    have hnws : ∀ x ∈ '-' :: c :: cs, isWsCh x = false := by
      intro x hx
      rcases List.mem_cons.mp hx with h | h
      · subst h; decide
      · exact isDigitCh_not_ws (halln x h)
    rw [trimChars_no_ws hnws]
    have hstrip : stripSign ('-' :: c :: cs) = c :: cs := by
      unfold stripSign
      rw [if_pos (by simp)]
      rfl
    simp only [hstrip]
    have hrad : radixLiteralB ('-' :: c :: cs) = false := by
      unfold radixLiteralB
      rw [if_neg (by simp)]
    rw [hrad, key (c :: cs) (by simp) halln]
    simp
  · -- nonnegative: digits only
    obtain ⟨c, cs, hrepr, hcdig⟩ := natReprChars_head_digit i.toNat
    unfold jsIsNumericChars
    rw [hrepr] at hallp ⊢
    have hnws : ∀ x ∈ c :: cs, isWsCh x = false :=
      fun x hx => isDigitCh_not_ws (hallp x hx)
    rw [trimChars_no_ws hnws]
    have hstrip : stripSign (c :: cs) = c :: cs := by
      unfold stripSign
      rw [if_neg]
      simp
      exact ⟨digit_ne_minus hcdig, digit_ne_plus hcdig⟩
    simp only [hstrip]
    rw [key (c :: cs) (by simp) hallp]
    simp

/-! ## Data model

A step of a compiled sequence is the string `'-'` (a rest), an integral
JavaScript number (a note) or the number `NaN` (which the parser pushes
for tokens such as `.5` that pass `!isNaN` but fail `parseInt`). -/

inductive Step where
  | rest : Step
  | note (v : Int) : Step
  | nan : Step
deriving DecidableEq, Repr

/-- The parser configuration object (`defaults` merged with the
caller's options, plus the recursion-depth counter). -/
structure Config where
  debug : Bool
  maxRecursionDepth : Nat
  preserveEmptyNotes : Bool
  defaultRestValue : Step
  normalizePitches : Bool
  currentDepth : Nat
deriving DecidableEq, Repr

/-- The `defaults` object of `parsePattern`. -/
def defaultConfig : Config := ⟨false, 10, false, Step.rest, false, 0⟩

/-- Replace the `currentDepth` field. -/
def withDepth (c : Config) (d : Nat) : Config :=
  ⟨c.debug, c.maxRecursionDepth, c.preserveEmptyNotes, c.defaultRestValue,
   c.normalizePitches, d⟩

@[simp] theorem withDepth_currentDepth (c : Config) (d : Nat) :
    (withDepth c d).currentDepth = d := rfl

@[simp] theorem withDepth_maxRecursionDepth (c : Config) (d : Nat) :
    (withDepth c d).maxRecursionDepth = c.maxRecursionDepth := rfl

/-! ## The tokenizer

`parsePatternString` tokenizes with the global regex
`/(\w+\s*\[.*?\]|\[.*?\]\*\d+|\[.*?\]|[^,;\s]+)/g`.
A global match scans left to right; at each position the four
alternatives are tried in order, and a position where none matches is
skipped.  Since any non-separator character matches the last
alternative, the scan skips exactly the separator characters.  The
lazy `.*?` bodies stop at the first closing bracket (first closing
bracket that is followed by `*` and a digit, for the second
alternative); `.` does not match a line terminator. -/

/-- Index of the first `]` reachable by `.*?` (every character before
it must be matched by `.`). -/
def lazyClose : List Char → Option Nat
  | [] => none
  | c :: cs =>
      if c = ']' then some 0
      else if isDotCh c then (lazyClose cs).map (· + 1)
      else none

/-- Index of the first `]` that is directly followed by `*` and a
digit, with every character before it matched by `.`. -/
def lazyCloseStar : List Char → Option Nat
  | [] => none
  | c :: cs =>
      if c = ']' && cs.head? = some '*' &&
          (match cs.tail.head? with
           | some d => isDigitCh d
           | none => false) then some 0
      else if isDotCh c then (lazyCloseStar cs).map (· + 1)
      else none

/-- Length of the maximal prefix satisfying `p`. -/
def countWhile (p : Char → Bool) (l : List Char) : Nat :=
  (l.takeWhile p).length

/-- Try the first alternative `\w+\s*\[.*?\]` at the current position;
returns the number of characters consumed.  Only the maximal `\w+` run
can be followed by `\s*\[`, since a shorter run is followed by a word
character, which is neither whitespace nor `[`. -/
def alt1Len (cs : List Char) : Option Nat :=
  let w := countWhile isWordCh cs
  if w = 0 then none
  else
    let sp := countWhile isWsCh (cs.drop w)
    if cs.get? (w + sp) = some '[' then
      match lazyClose (cs.drop (w + sp + 1)) with
      | some b => some (w + sp + 1 + b + 1)
      | none => none
    else none

/-- Try the second alternative `\[.*?\]\*\d+`. -/
def alt2Len (cs : List Char) : Option Nat :=
  if cs.head? = some '[' then
    match lazyCloseStar (cs.drop 1) with
    | some k =>
        let d := countWhile isDigitCh (cs.drop (1 + k + 2))
        some (1 + k + 2 + d)
    | none => none
  else none

/-- Try the third alternative `\[.*?\]`. -/
def alt3Len (cs : List Char) : Option Nat :=
  if cs.head? = some '[' then
    match lazyClose (cs.drop 1) with
    | some b => some (1 + b + 1)
    | none => none
  else none

/-- Number of characters the token starting at the current (non-
separator) position consumes: the four alternatives in order, the
last being `[^,;\s]+`. -/
def matchLen (cs : List Char) : Nat :=
  match alt1Len cs with
  | some n => n
  | none =>
      match alt2Len cs with
      | some n => n
      | none =>
          match alt3Len cs with
          | some n => n
          | none => countWhile (fun c => !isSepCh c) cs

theorem alt1Len_pos {cs : List Char} {n : Nat} (h : alt1Len cs = some n) :
    1 ≤ n := by
  simp only [alt1Len] at h
  split at h
  · exact absurd h (by simp)
  · split at h
    · split at h
      · simp only [Option.some.injEq] at h
        omega
      · exact absurd h (by simp)
    · exact absurd h (by simp)

theorem alt2Len_pos {cs : List Char} {n : Nat} (h : alt2Len cs = some n) :
    1 ≤ n := by
  simp only [alt2Len] at h
  split at h
  · split at h
    · simp only [Option.some.injEq] at h
      omega
    · exact absurd h (by simp)
  · exact absurd h (by simp)

theorem alt3Len_pos {cs : List Char} {n : Nat} (h : alt3Len cs = some n) :
    1 ≤ n := by
  simp only [alt3Len] at h
  split at h
  · split at h
    · simp only [Option.some.injEq] at h
      omega
    · exact absurd h (by simp)
  · exact absurd h (by simp)

theorem matchLen_pos {c : Char} {cs : List Char} (h : isSepCh c = false) :
    1 ≤ matchLen (c :: cs) := by
  unfold matchLen
  cases h1 : alt1Len (c :: cs) with
  | some n => exact alt1Len_pos h1
  | none =>
      cases h2 : alt2Len (c :: cs) with
      | some n => exact alt2Len_pos h2
      | none =>
          cases h3 : alt3Len (c :: cs) with
          | some n => exact alt3Len_pos h3
          | none =>
              unfold countWhile
              rw [List.takeWhile_cons]
              simp [h]

/-- The token scan: skip separators; at a non-separator position take
`matchLen` characters as a token and continue. -/
def tokenize (l : List Char) : List (List Char) :=
  match l with
  | [] => []
  | c :: cs =>
      if h : isSepCh c then tokenize cs
      else
        (c :: cs).take (matchLen (c :: cs)) ::
          tokenize ((c :: cs).drop (matchLen (c :: cs)))
termination_by l.length
decreasing_by
  all_goals simp_wf
  exact matchLen_pos (by simpa using h)

/-! ## The transformation engine (`transformPattern`)

`Math.random()` is modelled by a stream `rng : Nat → ℚ` of draws and a
counter that indexes the next draw; every random-consuming function
returns the advanced counter.  `Math.random`'s contract places every
draw in `[0,1)`; the out-of-range index a violating draw would produce
in the Fisher–Yates swap is modelled as a no-op. -/

/-- Model of `match(/([a-z]+)(\d*)/)`: the first lowercase-letter run anywhere
in the string, together with the digit run that directly follows it;
`none` when the string has no lowercase letter. -/
def extractTransform : List Char → Option (List Char × List Char)
  | [] => none
  | c :: cs =>
      if isLowerCh c then
        some ((c :: cs).takeWhile isLowerCh,
              ((c :: cs).dropWhile isLowerCh).takeWhile isDigitCh)
      else extractTransform cs

/-- Model of `Math.round`: round half toward positive infinity. -/
def jsRound (q : ℚ) : Int := Int.floor (q + 1/2)

/-- Exchange the elements at positions `i` and `j`. -/
def swapAt (l : List Step) (i j : Nat) : List Step :=
  match l.get? i, l.get? j with
  | some a, some b => (l.set i b).set j a
  | _, _ => l

@[simp] theorem swapAt_length (l : List Step) (i j : Nat) :
    (swapAt l i j).length = l.length := by
  unfold swapAt
  cases l.get? i <;> cases l.get? j <;> simp

/-- The Fisher–Yates loop of `shuffleArray`, counting `i` down to 1;
each step draws `j = Math.floor(Math.random() * (i + 1))`. -/
def shuffleGo (rng : Nat → ℚ) (l : List Step) : Nat → Nat → List Step × Nat
  | 0, k => (l, k)
  | i + 1, k =>
      shuffleGo rng
        (swapAt l (i + 1) (Int.floor (rng k * ((i + 2 : Nat) : ℚ))).toNat) i (k + 1)

/-- Model of `shuffleArray` (Fisher–Yates with `Math.random`). -/
def shuffleArray (rng : Nat → ℚ) (k : Nat) (l : List Step) : List Step × Nat :=
  shuffleGo rng l (l.length - 1) k

theorem shuffleGo_length (rng : Nat → ℚ) :
    ∀ (i : Nat) (l : List Step) (k : Nat),
      (shuffleGo rng l i k).1.length = l.length := by
  intro i
  induction i with
  | zero => intro l k; rfl
  | succ i ih =>
      intro l k
      unfold shuffleGo
      rw [ih]
      simp

@[simp] theorem shuffleArray_length (rng : Nat → ℚ) (k : Nat) (l : List Step) :
    (shuffleArray rng k l).1.length = l.length :=
  shuffleGo_length rng (l.length - 1) l k

/-- The per-element loop of the `sparse` transform: every element
consumes one draw and is replaced by a rest when the draw is below the
probability. -/
def sparseGo (rng : Nat → ℚ) (prob : ℚ) : List Step → Nat → List Step × Nat
  | [], k => ([], k)
  | x :: xs, k =>
      let x' := if rng k < prob then Step.rest else x
      let t := sparseGo rng prob xs (k + 1)
      (x' :: t.1, t.2)

theorem sparseGo_length (rng : Nat → ℚ) (prob : ℚ) :
    ∀ (l : List Step) (k : Nat), (sparseGo rng prob l k).1.length = l.length := by
  intro l
  induction l with
  | nil => intro k; rfl
  | cons x xs ih =>
      intro k
      unfold sparseGo
      simp [ih]

/-- Pointwise action on notes: rests pass through, `NaN` arithmetic
yields `NaN`. -/
def mapNote (f : Int → Step) : Step → Step
  | Step.rest => Step.rest
  | Step.note v => f v
  | Step.nan => Step.nan

/-- Model of `transformPattern(transformName, pattern)`: extract the transform
key and optional numeric parameter from the name and dispatch on the
registry.  An unknown key, a missing match, or a missing required
parameter returns the pattern unchanged.  The result is `none` when
the call throws: `repeat` with a parameter of `2 ^ 32` or more
evaluates `Array(param)` on each element, which raises a `RangeError`
(invalid array length) as soon as the pattern is nonempty. -/
def transformPattern (rng : Nat → ℚ) (k : Nat) (name : List Char)
    (pattern : List Step) : Option (List Step × Nat) :=
  match extractTransform name with
  | none => some (pattern, k)
  | some (key, digits) =>
      let param : Option Nat := if digits.isEmpty then none else some (parseNatDigits digits)
      if key = "scramble".toList then
        some (shuffleArray rng k pattern)
      else if key = "invert".toList then
        match param with
        | none => some (pattern, k)
        | some p => some (pattern.map (mapNote (fun v => Step.note ((p : Int) * 2 - v))), k)
      else if key = "scale".toList then
        match param with
        | none => some (pattern, k)
        | some p => some (pattern.map (mapNote (fun v => Step.note (v * (p : Int)))), k)
      else if key = "offset".toList then
        match param with
        | none => some (pattern, k)
        | some p => some (pattern.map (mapNote (fun v => Step.note (v + (p : Int)))), k)
      else if key = "mirror".toList then
        some (pattern ++ pattern.dropLast.reverse, k)
      else if key = "repeat".toList then
        match param with
        | none => some (pattern, k)
        | some p =>
            -- `Array(param)` throws a RangeError for an invalid array
            -- length (param at or above 2^32); the callback runs once
            -- per element, so a nonempty pattern raises the error
            if 2 ^ 32 ≤ p ∧ pattern ≠ [] then none
            else some (pattern.flatMap (fun s => List.replicate p s), k)
      else if key = "quantize".toList then
        match param with
        | none => some (pattern, k)
        | some p =>
            some (pattern.map (mapNote (fun v =>
              if p = 0 then Step.nan
              else Step.note (jsRound ((v : ℚ) / (p : ℚ)) * (p : Int)))), k)
      else if key = "reverse".toList then
        some (pattern.reverse, k)
      else if key = "rotate".toList then
        -- `param || 1`: an absent or zero parameter becomes 1
        let steps : Nat := match param with
          | none => 1
          | some p => if p = 0 then 1 else p
        let len := pattern.length
        if len ≤ 1 then some (pattern, k)
        else
          let m := (steps % len + len) % len
          some (pattern.drop m ++ pattern.take m, k)
      else if key = "sparse".toList then
        -- `param ? param / 100 : 0.5`: an absent or zero parameter means 50%
        let prob : ℚ := match param with
          | none => 1/2
          | some p => if p = 0 then 1/2 else (p : ℚ) / 100
        some (sparseGo rng prob pattern k)
      else if key = "interleave".toList then
        some (pattern.flatMap (fun x => [x, Step.rest]), k)
      else some (pattern, k)

/-- Whether a string names one of the eleven registry entries of
`transformPattern`'s switch. -/
def isRegistryName (l : List Char) : Bool :=
  l = "scramble".toList || l = "invert".toList || l = "scale".toList ||
  l = "offset".toList || l = "mirror".toList || l = "repeat".toList ||
  l = "quantize".toList || l = "reverse".toList || l = "rotate".toList ||
  l = "sparse".toList || l = "interleave".toList

/-- An ASCII letter. -/
def isLetterCh (c : Char) : Bool :=
  (65 ≤ c.toNat && c.toNat ≤ 90) || (97 ≤ c.toNat && c.toNat ≤ 122)

/-- The letters-only prefix of a string (the reading of §4.3's
"split into a letters-only prefix and an optional trailing digit
run"). -/
def leadingLetters (l : List Char) : List Char := l.takeWhile isLetterCh

/-! ## The grammar compiler (`parsePatternString`)

The recursion-depth counter is incremented on entry and handed to the
processing of every token of the level; the guard at the top of
`parsePatternString` returns the empty sequence once the counter
exceeds the configured maximum, which also bounds the recursion and
makes the definition total. -/

/-- Model of `normalizePattern` restricted to parser-produced steps: `'-'`
stays a rest, an integral number re-parses to itself, `NaN` fails
`parseInt` and is returned unchanged. -/
def normalizeStep : Step → Step
  | Step.rest => Step.rest
  | Step.note v =>
      match jsParseIntChars (intReprChars v) with
      | some n => Step.note n
      | none => Step.note v
  | Step.nan => Step.nan

/-- Model of `/^\w+\[.*\]$/.test(token)`: a maximal word run of length at least
one, directly followed by `[`, with a final `]` and only `.`-matchable
characters between. -/
def testTransformToken (t : List Char) : Bool :=
  let a := countWhile isWordCh t
  decide (1 ≤ a) && t.get? a = some '[' && decide (a + 2 ≤ t.length) &&
    t.getLast? = some ']' && ((t.drop (a + 1)).dropLast.all isDotCh)

/-- Model of `indexOf(c)`: `-1` when absent. -/
def jsIndexOf (c : Char) (l : List Char) : Int :=
  match l.indexOf? c with
  | some i => (i : Int)
  | none => -1

/-- Model of `lastIndexOf(c)`: `-1` when absent. -/
def jsLastIndexOf (c : Char) (l : List Char) : Int :=
  match l.reverse.indexOf? c with
  | some i => (l.length : Int) - 1 - (i : Int)
  | none => -1

/-- Model of `token.slice(1, -1)`: drop the first and last character. -/
def sliceEnds (l : List Char) : List Char := (l.drop 1).dropLast

/-- Whether `pat` occurs as a contiguous substring (the
`token.includes` test). -/
def isInfixB (pat : List Char) : List Char → Bool
  | [] => pat.isEmpty
  | c :: cs => pat.isPrefixOf (c :: cs) || isInfixB pat cs

/-- Model of `handleDirectRepetition(token, config)`: split the token at `*`,
validate the count with `parseInt`, and emit that many rests (for
`-`), parsed notes (for a numeric-looking value) or nothing. -/
def handleDirectRepetition (t : List Char) (cfg : Config) : List Step :=
  match t.splitOn '*' with
  | v :: r :: _ =>
      if v.isEmpty || r.isEmpty then []
      else
        match jsParseIntChars r with
        | none => []
        | some c =>
            if c ≤ 0 then []
            else if v = ['-'] then List.replicate c.toNat cfg.defaultRestValue
            else if jsIsNumericChars v then
              match jsParseIntChars v with
              | some n => List.replicate c.toNat (Step.note n)
              | none => List.replicate c.toNat Step.nan
            else []
  | _ => []

mutual

/-- Model of `parsePatternString(pattern, config)`: guard the recursion depth,
tokenize, expand every token in order, and optionally normalize. -/
def parsePatternString (rng : Nat → ℚ) (p : List Char) (cfg : Config)
    (k : Nat) : List Step × Nat :=
  if h : cfg.currentDepth > cfg.maxRecursionDepth then ([], k)
  else
    let r := processTokens rng (tokenize p) (withDepth cfg (cfg.currentDepth + 1)) k
    (if cfg.normalizePitches then r.1.map normalizeStep else r.1, r.2)
termination_by (cfg.maxRecursionDepth + 1 - cfg.currentDepth, 0, 0)

/-- The `tokens.forEach` loop: expand each token and concatenate. -/
def processTokens (rng : Nat → ℚ) (ts : List (List Char)) (cfg : Config)
    (k : Nat) : List Step × Nat :=
  match ts with
  | [] => ([], k)
  | t :: rest =>
      let h := dispatchToken rng t cfg k
      let r := processTokens rng rest cfg h.2
      (h.1 ++ r.1, r.2)
termination_by (cfg.maxRecursionDepth + 1 - cfg.currentDepth, ts.length + 1, 0)

/-- Per-token dispatch, in the source's priority order: numeric
token, transform call, group with repeat, simple group, direct
repetition, rest, and a `parseInt` fallback.  The transform-call and
group-with-repeat branches inline `handleTransformation` and
`handleGroupWithRepeat`. -/
def dispatchToken (rng : Nat → ℚ) (t : List Char) (cfg : Config)
    (k : Nat) : List Step × Nat :=
  if jsIsNumericChars t then
    (match jsParseIntChars t with
     | some n => [Step.note n]
     | none => [Step.nan], k)
  else if testTransformToken t then
    -- handleTransformation; a RangeError thrown by the transform is
    -- caught by the forEach try/catch, so the token contributes
    -- nothing and processing continues
    let io := jsIndexOf '[' t
    let ce := jsLastIndexOf ']' t
    if io + 1 ≥ ce then ([], k)
    else
      let content := (t.drop (io + 1).toNat).take (ce - (io + 1)).toNat
      let pr := parsePatternString rng content cfg k
      match transformPattern rng pr.2 (t.take io.toNat) pr.1 with
      | some r => r
      | none => ([], pr.2)
  else if isInfixB [']', '*'] t then
    -- handleGroupWithRepeat
    match t.splitOn '*' with
    | g :: r :: _ =>
        if g.isEmpty || r.isEmpty then ([], k)
        else
          (match jsParseIntChars r with
           | none => ([], k)
           | some c =>
               if c ≤ 0 then ([], k)
               else
                 let pr := parsePatternString rng (trimChars (sliceEnds g)) cfg k
                 ((List.replicate c.toNat pr.1).flatten, pr.2))
    | _ => ([], k)
  else if t.head? = some '[' && t.getLast? = some ']' then
    parsePatternString rng (trimChars (sliceEnds t)) cfg k
  else if t.contains '*' then
    (handleDirectRepetition t cfg, k)
  else if t = ['-'] then
    ([cfg.defaultRestValue], k)
  else
    (match jsParseIntChars t with
     | some n => [Step.note n]
     | none => [], k)
termination_by (cfg.maxRecursionDepth + 1 - cfg.currentDepth, 0, 1)

end

/-- Model of `handleTransformation(token, config)` as a standalone function
(the same code the transform branch of `dispatchToken` runs); `none`
is an exception from the transform propagating to the caller. -/
def handleTransformation (rng : Nat → ℚ) (t : List Char) (cfg : Config)
    (k : Nat) : Option (List Step × Nat) :=
  let io := jsIndexOf '[' t
  let ce := jsLastIndexOf ']' t
  if io + 1 ≥ ce then some ([], k)
  else
    let content := (t.drop (io + 1).toNat).take (ce - (io + 1)).toNat
    let pr := parsePatternString rng content cfg k
    transformPattern rng pr.2 (t.take io.toNat) pr.1

/-- Model of `handleGroupWithRepeat(token, config)` as a standalone function
(the same code the group-with-repeat branch of `dispatchToken`
runs). -/
def handleGroupWithRepeat (rng : Nat → ℚ) (t : List Char) (cfg : Config)
    (k : Nat) : List Step × Nat :=
  match t.splitOn '*' with
  | g :: r :: _ =>
      if g.isEmpty || r.isEmpty then ([], k)
      else
        (match jsParseIntChars r with
         | none => ([], k)
         | some c =>
             if c ≤ 0 then ([], k)
             else
               let pr := parsePatternString rng (trimChars (sliceEnds g)) cfg k
               ((List.replicate c.toNat pr.1).flatten, pr.2))
  | _ => ([], k)

/-- Model of `parsePattern(pattern, options)`: the public entry point; an empty
pattern is invalid input and compiles to the empty sequence, otherwise
the depth counter starts at zero. -/
def parsePattern (rng : Nat → ℚ) (k : Nat) (p : List Char)
    (opts : Config) : List Step × Nat :=
  if p.isEmpty then ([], k)
  else parsePatternString rng p (withDepth opts 0) k

/-! ## Sequence utilities -/

/-- Model of `String(step)`: how `Array.prototype.join` renders one step. -/
def stepToChars : Step → List Char
  | Step.rest => ['-']
  | Step.note v => intReprChars v
  | Step.nan => "NaN".toList

/-- Model of `Array.prototype.join(' ')`. -/
def joinSpace : List (List Char) → List Char
  | [] => []
  | [w] => w
  | w :: ws => w ++ ' ' :: joinSpace ws

/-- Model of `patternToString(pattern)`: the space-joined textual form. -/
def patternToString (p : List Step) : List Char :=
  joinSpace (p.map stepToChars)

/-! ## `normalizePattern` on loose values

`normalizePattern` is applied by the host to arbitrary arrays, so its
embedding works on a type of loose JavaScript values: integral
numbers, `NaN`, strings, `null` and `undefined`. -/

inductive LooseVal where
  | lnum (n : Int) : LooseVal
  | lnan : LooseVal
  | lstr (s : List Char) : LooseVal
  | lnull : LooseVal
  | lundef : LooseVal
deriving DecidableEq, Repr

/-- Model of `parseInt(item)` on a loose value: numbers are stringified first,
`null`/`undefined`/`NaN` stringify to non-numerals. -/
def jsParseIntLoose : LooseVal → Option Int
  | LooseVal.lnum n => jsParseIntChars (intReprChars n)
  | LooseVal.lnan => jsParseIntChars ("NaN".toList)
  | LooseVal.lstr s => jsParseIntChars s
  | LooseVal.lnull => jsParseIntChars ("null".toList)
  | LooseVal.lundef => jsParseIntChars ("undefined".toList)

/-- The per-item body of `normalizePattern`. -/
def normalizeItem (v : LooseVal) : LooseVal :=
  if v = LooseVal.lstr ['-'] ∨ v = LooseVal.lundef ∨ v = LooseVal.lnull then
    LooseVal.lstr ['-']
  else
    match jsParseIntLoose v with
    | some n => LooseVal.lnum n
    | none => v

/-- Model of `normalizePattern(pattern)`. -/
def normalizePattern (l : List LooseVal) : List LooseVal :=
  l.map normalizeItem

/-- Loose values on which the embedding is faithful to JavaScript:
a number must be a safe integer (beyond `10 ^ 21`, `String(n)` prints
exponential notation, which `parseInt` then truncates at the `e`), and
a string must either fail `parseInt` (failure is magnitude-independent)
or parse to a safe integer (beyond `2 ^ 53`, JavaScript rounds the
digit run to the nearest double while the embedding keeps the exact
value). -/
def safeLooseVal : LooseVal → Prop
  | LooseVal.lnum n => jsSafeInt n
  | LooseVal.lstr s => jsParseIntChars s = none ∨
      ∃ n, jsParseIntChars s = some n ∧ jsSafeInt n
  | _ => True

/-! ## `createRandomPattern` -/

/-- The options object of `createRandomPattern` (`defaults` merged
with the caller's options). -/
structure RandOptions where
  length : Nat
  minValue : Int
  maxValue : Int
  restProbability : ℚ
  groupProbability : ℚ
  repetitionProbability : ℚ
deriving Repr

/-- The `defaults` object of `createRandomPattern`. -/
def defaultRandOptions : RandOptions := ⟨16, 1, 99, 3/10, 1/5, 2/5⟩

/-- Model of `Math.floor(q * (max - min + 1)) + min`, the note-value draw. -/
def noteVal (o : RandOptions) (q : ℚ) : Step :=
  Step.note (Int.floor (q * ((o.maxValue - o.minValue + 1 : Int) : ℚ)) + o.minValue)

/-- The inner `for (j …)` loop that fills a group: each element is a
rest (one draw) or a note (two draws). -/
def randGroup (rng : Nat → ℚ) (o : RandOptions) : Nat → Nat → List Step × Nat
  | 0, k => ([], k)
  | j + 1, k =>
      if rng k < o.restProbability then
        let r := randGroup rng o j (k + 1)
        (Step.rest :: r.1, r.2)
      else
        let r := randGroup rng o j (k + 2)
        (noteVal o (rng (k + 1)) :: r.1, r.2)

/-- The main `for (i …)` loop of `createRandomPattern`.  `i` advances
by the number of elements pushed (the loop adds `groupLength - 1` or
`repeatCount - 1` and the `i++` adds one more). -/
def randLoop (rng : Nat → ℚ) (o : RandOptions) (i : Nat) (k : Nat) :
    List Step × Nat :=
  if h : i < o.length then
    if rng k < o.restProbability then
      let r := randLoop rng o (i + 1) (k + 1)
      (Step.rest :: r.1, r.2)
    else if rng k < o.restProbability + o.groupProbability then
      if (i : Int) < (o.length : Int) - 3 then
        let gl := (Int.floor (rng (k + 1) * 3)).toNat + 2
        let g := randGroup rng o gl (k + 2)
        if rng g.2 < o.repetitionProbability then
          let rc := (Int.floor (rng (g.2 + 1) * 3)).toNat + 2
          let r := randLoop rng o (i + gl) (g.2 + 2)
          ((List.replicate rc g.1).flatten ++ r.1, r.2)
        else
          let r := randLoop rng o (i + gl) (g.2 + 1)
          (g.1 ++ r.1, r.2)
      else
        let r := randLoop rng o (i + 1) (k + 2)
        (noteVal o (rng (k + 1)) :: r.1, r.2)
    else
      if rng (k + 2) < o.repetitionProbability then
        let rc := (Int.floor (rng (k + 3) * 3)).toNat + 2
        let r := randLoop rng o (i + rc) (k + 4)
        (List.replicate rc (noteVal o (rng (k + 1))) ++ r.1, r.2)
      else
        let r := randLoop rng o (i + 1) (k + 3)
        (noteVal o (rng (k + 1)) :: r.1, r.2)
  else ([], k)
termination_by o.length - i
decreasing_by all_goals omega

/-- Model of `createRandomPattern(options)`. -/
def createRandomPattern (rng : Nat → ℚ) (k : Nat) (o : RandOptions) :
    List Step × Nat :=
  randLoop rng o 0 k

/-! ## Tokenizing a flat stringified sequence

`patternToString` produces space-joined words without brackets or
separators; on such input the tokenizer returns exactly the words. -/

/-- A word as produced by `stepToChars`: nonempty, with no separator
and no opening bracket. -/
def wordOk (w : List Char) : Prop :=
  w ≠ [] ∧ ∀ c ∈ w, isSepCh c = false ∧ c ≠ '['

theorem takeWhile_append_of_all {p : Char → Bool} {l₁ l₂ : List Char}
    (h : ∀ c ∈ l₁, p c = true) :
    (l₁ ++ l₂).takeWhile p = l₁ ++ l₂.takeWhile p := by
  induction l₁ with
  | nil => simp
  | cons c cs ih =>
      rw [List.cons_append, List.takeWhile_cons, h c (by simp)]
      simp only [if_true]
      rw [ih (fun x hx => h x (by simp [hx]))]
      rfl

theorem countWhile_word {w rest : List Char} {p : Char → Bool}
    (hw : ∀ c ∈ w, p c = true)
    (hrest : ∀ c cs, rest = c :: cs → p c = false) :
    countWhile p (w ++ rest) = w.length := by
  unfold countWhile
  rw [takeWhile_append_of_all hw]
  cases rest with
  | nil => simp
  | cons c cs => rw [takeWhile_head_false (hrest c cs rfl)]; simp

theorem alt1Len_no_bracket {cs : List Char} (h : '[' ∉ cs) :
    alt1Len cs = none := by
  simp only [alt1Len]
  split
  · rfl
  · rw [if_neg]
    intro hc
    exact h (List.get?_mem hc)

theorem alt2Len_no_bracket {cs : List Char} (h : '[' ∉ cs) :
    alt2Len cs = none := by
  unfold alt2Len
  rw [if_neg]
  intro hc
  cases cs with
  | nil => simp at hc
  | cons c cs' =>
      simp at hc
      exact h (by simp [hc])

theorem alt3Len_no_bracket {cs : List Char} (h : '[' ∉ cs) :
    alt3Len cs = none := by
  unfold alt3Len
  rw [if_neg]
  intro hc
  cases cs with
  | nil => simp at hc
  | cons c cs' =>
      simp at hc
      exact h (by simp [hc])

theorem matchLen_no_bracket {cs : List Char} (h : '[' ∉ cs) :
    matchLen cs = countWhile (fun c => !isSepCh c) cs := by
  unfold matchLen
  rw [alt1Len_no_bracket h, alt2Len_no_bracket h, alt3Len_no_bracket h]

theorem mem_joinSpace :
    ∀ (ws : List (List Char)) (x : Char), x ∈ joinSpace ws →
      x = ' ' ∨ ∃ w, w ∈ ws ∧ x ∈ w := by
  intro ws
  induction ws with
  | nil => intro x hx; cases hx
  | cons w ws ih =>
      intro x hx
      cases ws with
      | nil =>
          right
          exact ⟨w, by simp, by simpa [joinSpace] using hx⟩
      | cons w' ws' =>
          rw [show joinSpace (w :: w' :: ws') = w ++ ' ' :: joinSpace (w' :: ws')
              from rfl] at hx
          rcases List.mem_append.mp hx with h | h
          · exact Or.inr ⟨w, by simp, h⟩
          · rcases List.mem_cons.mp h with h | h
            · exact Or.inl h
            · rcases ih x h with h | ⟨u, hu, hxu⟩
              · exact Or.inl h
              · exact Or.inr ⟨u, by simp [hu], hxu⟩

/-- On a space-joined list of bracket-free separator-free words, the
tokenizer returns exactly the words. -/
theorem tokenize_joinSpace :
    ∀ (ws : List (List Char)), (∀ w ∈ ws, wordOk w) →
      tokenize (joinSpace ws) = ws := by
  intro ws
  induction ws with
  | nil =>
      intro _
      rw [show joinSpace [] = ([] : List Char) from rfl, tokenize]
  | cons w ws ih =>
      intro hok
      obtain ⟨hne, hchars⟩ := hok w (by simp)
      obtain ⟨c, cs, rfl⟩ : ∃ c cs, w = c :: cs := by
        cases w with
        | nil => exact absurd rfl hne
        | cons c cs => exact ⟨c, cs, rfl⟩
      have hnosep : ∀ x ∈ c :: cs, (!isSepCh x) = true := by
        intro x hx
        simp [(hchars x hx).1]
      have hnobr : ∀ x ∈ c :: cs, x ≠ '[' := fun x hx => (hchars x hx).2
      cases ws with
      | nil =>
          -- last word: the whole remainder is one token
          show tokenize (c :: cs) = [c :: cs]
          rw [tokenize]
          rw [dif_neg (by simp [(hchars c (by simp)).1])]
          have hml : matchLen (c :: cs) = (c :: cs).length := by
            rw [matchLen_no_bracket (by simpa using fun hx => (hnobr '[' hx) rfl)]
            have := @countWhile_word (c :: cs) [] _ hnosep (by intro _ _ hc; cases hc)
            simpa using this
          rw [hml, List.take_length, List.drop_length]
          rw [show tokenize [] = [] from by rw [tokenize]]
      | cons w' ws' =>
          show tokenize ((c :: cs) ++ ' ' :: joinSpace (w' :: ws')) =
            (c :: cs) :: w' :: ws'
          have hnobrS : '[' ∉ (c :: cs) ++ ' ' :: joinSpace (w' :: ws') := by
            intro hmem
            rcases List.mem_append.mp hmem with h | h
            · exact hnobr '[' h rfl
            · rcases List.mem_cons.mp h with h | h
              · cases h
              · rcases mem_joinSpace _ '[' h with h | ⟨u, hu, hxu⟩
                · cases h
                · exact ((hok u (by simp [hu])).2 '[' hxu).2 rfl
          have hcons : ((c :: cs) ++ ' ' :: joinSpace (w' :: ws')) =
              c :: (cs ++ ' ' :: joinSpace (w' :: ws')) := by simp
          rw [hcons, tokenize]
          rw [dif_neg (by simp [(hchars c (by simp)).1])]
          rw [← hcons]
          have hml : matchLen ((c :: cs) ++ ' ' :: joinSpace (w' :: ws')) =
              (c :: cs).length := by
            rw [matchLen_no_bracket hnobrS]
            exact countWhile_word hnosep
              (by intro x xs hx; injection hx with h1 _; rw [← h1]; decide)
          rw [hml, List.take_left, List.drop_left]
          rw [show tokenize (' ' :: joinSpace (w' :: ws')) =
              tokenize (joinSpace (w' :: ws')) from by
            rw [tokenize]; rw [dif_pos (by decide)]]
          rw [ih (fun u hu => hok u (by simp [hu]))]

/-! ## Dispatching the tokens of a stringified sequence -/

theorem digit_ne_lbracket {c : Char} (h : isDigitCh c = true) : c ≠ '[' := by
  intro hc; subst hc; exact absurd h (by decide)

theorem wordOk_stepToChars {x : Step} (h : x ≠ Step.nan) :
    wordOk (stepToChars x) := by
  cases x with
  | rest =>
      refine ⟨by simp [stepToChars], ?_⟩
      intro c hc
      simp [stepToChars] at hc
      subst hc
      exact ⟨by decide, by decide⟩
  | note v =>
      refine ⟨?_, ?_⟩
      · simp only [stepToChars]
        unfold intReprChars
        split
        · simp
        · exact natReprChars_ne_nil _
      · intro c hc
        simp only [stepToChars] at hc
        unfold intReprChars at hc
        split at hc
        · rcases List.mem_cons.mp hc with h | h
          · subst h; exact ⟨by decide, by decide⟩
          · have hd := natReprChars_all_digits _ c h
            exact ⟨isDigitCh_not_sep hd, digit_ne_lbracket hd⟩
        · have hd := natReprChars_all_digits _ c hc
          exact ⟨isDigitCh_not_sep hd, digit_ne_lbracket hd⟩
  | nan => exact absurd rfl h

theorem dispatchToken_rest (rng : Nat → ℚ) (cfg : Config) (k : Nat) :
    dispatchToken rng ['-'] cfg k = ([cfg.defaultRestValue], k) := by
  rw [dispatchToken]
  rw [if_neg (by decide), if_neg (by decide), if_neg (by decide),
    if_neg (by decide), if_neg (by decide), if_pos rfl]

theorem dispatchToken_numeral (rng : Nat → ℚ) (cfg : Config) (k : Nat)
    (i : Int) :
    dispatchToken rng (intReprChars i) cfg k = ([Step.note i], k) := by
  rw [dispatchToken]
  rw [if_pos (by rw [jsIsNumericChars_intRepr]), jsParseIntChars_intRepr]

theorem processTokens_stepToChars (rng : Nat → ℚ) (cfg : Config)
    (hrest : cfg.defaultRestValue = Step.rest) :
    ∀ (s : List Step) (k : Nat), (∀ x ∈ s, x ≠ Step.nan) →
      processTokens rng (s.map stepToChars) cfg k = (s, k) := by
  intro s
  induction s with
  | nil => intro k _; rw [List.map_nil, processTokens]
  | cons x xs ih =>
      intro k hs
      rw [List.map_cons, processTokens]
      have hx : dispatchToken rng (stepToChars x) cfg k = ([x], k) := by
        cases x with
        | rest => rw [stepToChars]; rw [dispatchToken_rest, hrest]
        | note v => exact dispatchToken_numeral rng cfg k v
        | nan => exact absurd rfl (hs Step.nan (by simp))
      rw [hx, ih k (fun y hy => hs y (by simp [hy]))]
      simp

theorem joinSpace_cons_ne_nil {w : List Char} (hw : w ≠ [])
    {ws : List (List Char)} : joinSpace (w :: ws) ≠ [] := by
  cases ws with
  | nil => simpa [joinSpace] using hw
  | cons w' ws' =>
      rw [show joinSpace (w :: w' :: ws') = w ++ ' ' :: joinSpace (w' :: ws')
        from rfl]
      simp

/-! ## Claim theorems -/

/-- C3 (amended): `stringify` followed by `compile` with default
options is the identity on every sequence of rests and safe-integer
notes — flat compile outputs with no `NaN` element and no note of
`10 ^ 21` or beyond, where `String` would print exponential notation
(`String(1e21) = "1e+21"` recompiles to the note 1). -/
theorem c3_roundtrip_flat_amended :
    ∀ (rng : Nat → ℚ) (k : Nat) (s : List Step),
      (∀ x ∈ s, x = Step.rest ∨ ∃ v, x = Step.note v ∧ jsSafeInt v) →
      (parsePattern rng k (patternToString s) defaultConfig).1 = s := by
  intro rng k s hsafe
  have hs : ∀ x ∈ s, x ≠ Step.nan := by
    intro x hx
    rcases hsafe x hx with h | ⟨v, hv, -⟩
    · rw [h]; intro hc; cases hc
    · rw [hv]; intro hc; cases hc
  cases s with
  | nil => rfl
  | cons x xs =>
      have hwords : ∀ w ∈ (x :: xs).map stepToChars, wordOk w := by
        intro w hw
        simp only [List.mem_map] at hw
        obtain ⟨y, hy, rfl⟩ := hw
        exact wordOk_stepToChars (hs y hy)
      have hx0 : stepToChars x ≠ [] :=
        (wordOk_stepToChars (hs x (by simp))).1
      have hne : patternToString (x :: xs) ≠ [] := by
        unfold patternToString
        rw [List.map_cons]
        exact joinSpace_cons_ne_nil hx0
      unfold parsePattern
      rw [if_neg (by simpa using hne)]
      rw [parsePatternString, dif_neg (by decide)]
      have htok : tokenize (patternToString (x :: xs)) = (x :: xs).map stepToChars := by
        unfold patternToString
        exact tokenize_joinSpace _ hwords
      rw [htok, processTokens_stepToChars _ _ rfl _ _ hs]
      rfl

/-- C3 (counterexample): `compile(".5")` is the flat output `[NaN]`;
its stringification `"NaN"` recompiles to the empty sequence, so the
stringify-then-compile round trip is not the identity on flat compile
outputs. -/
theorem c3_roundtrip_counterexample :
    (parsePattern (fun _ => 0) 0 (".5".toList) defaultConfig).1 = [Step.nan] ∧
    (parsePattern (fun _ => 0) 0 (patternToString [Step.nan]) defaultConfig).1 = [] ∧
    ([] : List Step) ≠ [Step.nan] := by
  refine ⟨?_, ?_, by decide⟩ <;>
    simp +decide [parsePattern, parsePatternString, processTokens, dispatchToken,
      tokenize, matchLen, alt1Len, alt2Len, alt3Len, countWhile, lazyClose,
      lazyCloseStar, isSepCh, isWsCh, isWordCh, isDigitCh, isDotCh,
      jsIsNumericChars, trimChars, stripSign, decimalB, expOk, radixLiteralB,
      testTransformToken, jsIndexOf, jsLastIndexOf, jsParseIntChars,
      signSplit, parseIntCore, hexMark, isHexDigitCh, parseNatDigits,
      transformPattern, extractTransform, isLowerCh, withDepth, defaultConfig,
      isInfixB, sliceEnds, mapNote, String.toList, List.indexOf?,
      List.findIdx?, List.indexOf, patternToString, joinSpace, stepToChars,
      intReprChars, natReprChars]

/-- C3 (witness for the amended theorem): a concrete sequence of a
rest and two safe-integer notes round-trips. -/
theorem c3_roundtrip_witness :
    (∀ x ∈ [Step.rest, Step.note (-5), Step.note 42],
      x = Step.rest ∨ ∃ v, x = Step.note v ∧ jsSafeInt v) ∧
    (parsePattern (fun _ => 0) 0
      (patternToString [Step.rest, Step.note (-5), Step.note 42])
      defaultConfig).1 = [Step.rest, Step.note (-5), Step.note 42] := by
  have hsafe : ∀ x ∈ [Step.rest, Step.note (-5), Step.note 42],
      x = Step.rest ∨ ∃ v, x = Step.note v ∧ jsSafeInt v := by
    intro x hx
    simp only [List.mem_cons, List.not_mem_nil, or_false] at hx
    rcases hx with rfl | rfl | rfl
    · exact Or.inl rfl
    · exact Or.inr ⟨-5, rfl, by decide⟩
    · exact Or.inr ⟨42, rfl, by decide⟩
  exact ⟨hsafe, c3_roundtrip_flat_amended (fun _ => 0) 0 _ hsafe⟩

/-- C5: once the recursion-depth counter exceeds the configured
maximum, `parsePatternString` returns the empty sequence (consuming no
randomness) instead of recursing further; compilation is total by
construction, so every input terminates with a (possibly truncated)
sequence. -/
theorem c5_depth_guard :
    ∀ (rng : Nat → ℚ) (p : List Char) (cfg : Config) (k : Nat),
      cfg.currentDepth > cfg.maxRecursionDepth →
      parsePatternString rng p cfg k = ([], k) := by
  intro rng p cfg k h
  rw [parsePatternString, dif_pos h]

/-- C5 (witness): at depth 11 with the default maximum 10, a bracket
token expands to nothing. -/
theorem c5_depth_guard_witness :
    (withDepth defaultConfig 11).currentDepth >
      (withDepth defaultConfig 11).maxRecursionDepth ∧
    parsePatternString (fun _ => 0) "[1]".toList (withDepth defaultConfig 11) 0 =
      ([], 0) :=
  ⟨by decide, c5_depth_guard (fun _ => 0) _ _ 0 (by decide)⟩

/-- C7: `compile("scale2[1 2 3]")` with default options splits the
identifier into `scale` and parameter 2, compiles the bracket contents
to `[1,2,3]` and multiplies each note by 2, giving `[2,4,6]`. -/
theorem c7_scale2_compile :
    ∀ (rng : Nat → ℚ) (k : Nat),
      (parsePattern rng k ("scale2[1 2 3]".toList) defaultConfig).1 =
        [Step.note 2, Step.note 4, Step.note 6] := by
  intro rng k
  simp +decide [parsePattern, parsePatternString, processTokens, dispatchToken,
    tokenize, matchLen, alt1Len, alt2Len, alt3Len, countWhile, lazyClose,
    lazyCloseStar, isSepCh, isWsCh, isWordCh, isDigitCh, isDotCh,
    jsIsNumericChars, trimChars, stripSign, decimalB, expOk, radixLiteralB,
    testTransformToken, jsIndexOf, jsLastIndexOf, jsParseIntChars,
    signSplit, parseIntCore, hexMark, isHexDigitCh, parseNatDigits,
    transformPattern, extractTransform, isLowerCh, withDepth, defaultConfig,
    isInfixB, sliceEnds, mapNote, String.toList, List.indexOf?,
    List.findIdx?, List.indexOf]

/-- C8: `compile("[1 2]*3")` with default options compiles the bracket
contents once and concatenates three copies, giving
`[1,2,1,2,1,2]`. -/
theorem c8_group_repeat_compile :
    ∀ (rng : Nat → ℚ) (k : Nat),
      (parsePattern rng k ("[1 2]*3".toList) defaultConfig).1 =
        [Step.note 1, Step.note 2, Step.note 1, Step.note 2,
         Step.note 1, Step.note 2] := by
  intro rng k
  simp +decide [parsePattern, parsePatternString, processTokens, dispatchToken,
    tokenize, matchLen, alt1Len, alt2Len, alt3Len, countWhile, lazyClose,
    lazyCloseStar, isSepCh, isWsCh, isWordCh, isDigitCh, isDotCh,
    jsIsNumericChars, trimChars, stripSign, decimalB, expOk, radixLiteralB,
    testTransformToken, jsIndexOf, jsLastIndexOf, jsParseIntChars,
    signSplit, parseIntCore, hexMark, isHexDigitCh, parseNatDigits,
    transformPattern, extractTransform, isLowerCh, withDepth, defaultConfig,
    isInfixB, sliceEnds, mapNote, String.toList, List.indexOf?,
    List.findIdx?, List.indexOf, List.splitOn, List.splitOnP,
    List.splitOnP.go]

theorem dropWhile_append_of_all {p : Char → Bool} {l₁ l₂ : List Char}
    (h : ∀ c ∈ l₁, p c = true) :
    (l₁ ++ l₂).dropWhile p = l₂.dropWhile p := by
  induction l₁ with
  | nil => simp
  | cons c cs ih =>
      rw [List.cons_append, List.dropWhile_cons, h c (by simp)]
      simp only [if_true]
      exact ih (fun x hx => h x (by simp [hx]))

theorem digit_not_lower {c : Char} (h : isDigitCh c = true) :
    isLowerCh c = false := by
  simp [isDigitCh] at h
  simp [isLowerCh]
  omega

/-- The transform-name regex on a lowercase name followed by a digit
run finds exactly that split. -/
theorem extractTransform_lower_digits {w ds : List Char} (hw : w ≠ [])
    (hlw : ∀ c ∈ w, isLowerCh c = true) (hds : ∀ c ∈ ds, isDigitCh c = true) :
    extractTransform (w ++ ds) = some (w, ds) := by
  obtain ⟨c, cs, rfl⟩ : ∃ c cs, w = c :: cs := by
    cases w with
    | nil => exact absurd rfl hw
    | cons c cs => exact ⟨c, cs, rfl⟩
  rw [List.cons_append, extractTransform]
  rw [if_pos (hlw c (by simp))]
  rw [← List.cons_append]
  have htw : ((c :: cs) ++ ds).takeWhile isLowerCh = c :: cs := by
    rw [takeWhile_append_of_all hlw]
    cases ds with
    | nil => simp
    | cons d ds' =>
        rw [takeWhile_head_false (digit_not_lower (hds d (by simp)))]
        simp
  have hdw : ((c :: cs) ++ ds).dropWhile isLowerCh = ds := by
    rw [dropWhile_append_of_all hlw]
    cases ds with
    | nil => simp
    | cons d ds' => exact dropWhile_head_false (digit_not_lower (hds d (by simp)))
  rw [htw, hdw, takeWhile_all hds]

/-- C1 (amended): rotating by the sequence length is the identity, but
an explicit rotate parameter 0 is treated like an absent parameter
(`param || 1`), so `rotate0` behaves exactly like `rotate1` and is not
the identity on sequences longer than one step. -/
theorem c1_rotate_amended :
    ∀ (rng : Nat → ℚ) (k : Nat) (s : List Step),
      transformPattern rng k ("rotate".toList ++ natReprChars s.length) s =
        some (s, k) ∧
      transformPattern rng k ("rotate0".toList) s =
        transformPattern rng k ("rotate1".toList) s := by
  intro rng k s
  constructor
  · have hext := @extractTransform_lower_digits ("rotate".toList)
      (natReprChars s.length) (by decide) (by decide)
      (natReprChars_all_digits s.length)
    rw [transformPattern, hext]
    dsimp only
    rw [if_neg (by decide), if_neg (by decide), if_neg (by decide),
      if_neg (by decide), if_neg (by decide), if_neg (by decide),
      if_neg (by decide), if_neg (by decide), if_pos rfl]
    have hie : (natReprChars s.length).isEmpty = false := by
      cases h : natReprChars s.length with
      | nil => exact absurd h (natReprChars_ne_nil _)
      | cons c cs => rfl
    rw [hie]
    simp only [Bool.false_eq_true, if_false, parseNatDigits_natReprChars]
    match s with
    | [] => rfl
    | [a] => rfl
    | a :: b :: t =>
        have hlen : (a :: b :: t).length = t.length + 2 := by simp
        rw [if_neg (by omega)]
        rw [if_neg (by simp)]
        simp [Nat.mod_self]
  · rfl

/-- C1 (counterexample): `rotate` with explicit parameter 0 moves
`[1,2]` to `[2,1]`, so rotate-by-0 is not the identity. -/
theorem c1_rotate_zero_counterexample :
    transformPattern (fun _ => 0) 0 ("rotate0".toList)
      [Step.note 1, Step.note 2] = some ([Step.note 2, Step.note 1], 0) ∧
    transformPattern (fun _ => 0) 0 ("rotate0".toList)
      [Step.note 1, Step.note 2] ≠ some ([Step.note 1, Step.note 2], 0) := by
  exact ⟨by decide, by decide⟩

/-- C9 (amended): a transform whose key — the first lowercase-letter
run of the name, the part the registry is consulted with — is not a
registry entry (or whose name has no lowercase letter at all) leaves
the sequence unchanged. -/
theorem c9_unknown_transform_amended :
    ∀ (rng : Nat → ℚ) (k : Nat) (name : List Char) (s : List Step),
      (∀ key ds, extractTransform name = some (key, ds) →
        isRegistryName key = false) →
      transformPattern rng k name s = some (s, k) := by
  intro rng k name s h
  cases hext : extractTransform name with
  | none => rw [transformPattern, hext]
  | some kd =>
      obtain ⟨key, ds⟩ := kd
      have hreg := h key ds hext
      simp only [isRegistryName, Bool.or_eq_false_iff, decide_eq_false_iff_not] at hreg
      obtain ⟨⟨⟨⟨⟨⟨⟨⟨⟨⟨h1, h2⟩, h3⟩, h4⟩, h5⟩, h6⟩, h7⟩, h8⟩, h9⟩, h10⟩, h11⟩ := hreg
      rw [transformPattern, hext]
      dsimp only
      rw [if_neg h1, if_neg h2, if_neg h3, if_neg h4, if_neg h5, if_neg h6,
        if_neg h7, if_neg h8, if_neg h9, if_neg h10, if_neg h11]

/-- C9 (counterexample): the name `Xscale2` has the letters-only
prefix `Xscale`, which is not a registry entry, yet `transformPattern`
keys on the first lowercase run `scale` and scales the sequence
instead of returning it unchanged. -/
theorem c9_unknown_transform_counterexample :
    isRegistryName (leadingLetters ("Xscale2".toList)) = false ∧
    transformPattern (fun _ => 0) 0 ("Xscale2".toList) [Step.note 1] ≠
      some ([Step.note 1], 0) ∧
    transformPattern (fun _ => 0) 0 ("Xscale2".toList) [Step.note 1] =
      some ([Step.note 2], 0) := by
  exact ⟨by decide, by decide, by decide⟩

/-- C9 (witness): the unknown name `foo` leaves a sequence
unchanged. -/
theorem c9_unknown_transform_witness :
    (∀ key ds, extractTransform ("foo".toList) = some (key, ds) →
      isRegistryName key = false) ∧
    transformPattern (fun _ => 0) 0 ("foo".toList) [Step.note 1] =
      some ([Step.note 1], 0) := by
  have hyp : ∀ key ds, extractTransform ("foo".toList) = some (key, ds) →
      isRegistryName key = false := by
    intro key ds h
    have h' : ("foo".toList, ([] : List Char)) = (key, ds) := Option.some.inj h
    have hk : "foo".toList = key := congrArg Prod.fst h'
    rw [← hk]
    decide
  exact ⟨hyp, c9_unknown_transform_amended (fun _ => 0) 0 _ _ hyp⟩

theorem length_flatMap_replicate (m : Nat) (p : List Step) :
    (p.flatMap (fun s => List.replicate m s)).length = m * p.length := by
  induction p with
  | nil => simp
  | cons x xs ih =>
      simp only [List.flatMap_cons, List.length_append, List.length_replicate,
        ih, List.length_cons]
      ring

theorem length_flatMap_pair (p : List Step) :
    (p.flatMap (fun x => [x, Step.rest])).length = 2 * p.length := by
  induction p with
  | nil => simp
  | cons x xs ih =>
      simp only [List.flatMap_cons, List.length_append, ih, List.length_cons]
      simp
      ring

theorem leafBound {L n m : Nat} (h : L ≤ 2 * n ∨ L ≤ m * n) :
    L ≤ (m + 2) * n := by
  rcases h with h | h
  · calc L ≤ 2 * n := h
      _ ≤ (m + 2) * n := Nat.mul_le_mul_right _ (by omega)
  · calc L ≤ m * n := h
      _ ≤ (m + 2) * n := Nat.mul_le_mul_right _ (by omega)

/-- An upper bound on the output growth of a transform name: its
parameter (or 1) plus two. -/
def paramBound (name : List Char) : Nat :=
  match extractTransform name with
  | some (_, ds) => (if ds.isEmpty then 1 else parseNatDigits ds) + 2
  | none => 3

/-- Exactly when `transformPattern` throws: the name keys to `repeat`
with an explicit parameter of `2 ^ 32` or more (an invalid JavaScript
array length) and the sequence is nonempty, so `Array(param)` is
evaluated and raises a `RangeError`. -/
def repeatOverflow (name : List Char) (p : List Step) : Prop :=
  (∃ ds, extractTransform name = some ("repeat".toList, ds) ∧ ds ≠ [] ∧
    2 ^ 32 ≤ parseNatDigits ds) ∧ p ≠ []

theorem not_repeatOverflow_none {name : List Char} {p : List Step}
    (hext : extractTransform name = none) : ¬ repeatOverflow name p := by
  rintro ⟨⟨ds, hds, -, -⟩, -⟩
  rw [hext] at hds
  cases hds

theorem not_repeatOverflow_of_key {name : List Char} {p : List Step}
    {key ds : List Char} (hext : extractTransform name = some (key, ds))
    (hne : key ≠ ("repeat".toList)) : ¬ repeatOverflow name p := by
  rintro ⟨⟨ds', hds', -, -⟩, -⟩
  rw [hext] at hds'
  exact hne (congrArg Prod.fst (Option.some.inj hds'))

/-- C10 (amended): `transformPattern` returns a sequence — bounded in
length by `paramBound name` times the input length — for every
transform-name string and every sequence, except that a `repeat` whose
explicit parameter is an invalid array length (`2 ^ 32` or more)
applied to a nonempty sequence throws a `RangeError` to the caller
(the `none` result). -/
theorem c10_transform_amended :
    ∀ (rng : Nat → ℚ) (k : Nat) (name : List Char) (p : List Step),
      (repeatOverflow name p ∧ transformPattern rng k name p = none) ∨
      (¬ repeatOverflow name p ∧ ∃ out k2,
        transformPattern rng k name p = some (out, k2) ∧
        out.length ≤ paramBound name * p.length) := by
  intro rng k name p
  unfold paramBound
  cases hext : extractTransform name with
  | none =>
      right
      refine ⟨not_repeatOverflow_none hext, p, k, ?_, ?_⟩
      · rw [transformPattern, hext]
      · exact show p.length ≤ 3 * p.length by omega
  | some kd =>
      obtain ⟨key, ds⟩ := kd
      rw [transformPattern, hext]
      dsimp only
      by_cases hk1 : key = "scramble".toList
      · rw [if_pos hk1]
        right
        refine ⟨not_repeatOverflow_of_key hext (by rw [hk1]; decide),
          _, _, rfl, ?_⟩
        show (shuffleArray rng k p).1.length ≤ _
        rw [shuffleArray_length]
        apply leafBound; left; omega
      rw [if_neg hk1]
      by_cases hk2 : key = "invert".toList
      · rw [if_pos hk2]
        refine Or.inr ⟨not_repeatOverflow_of_key hext (by rw [hk2]; decide), ?_⟩
        by_cases hie : ds.isEmpty = true
        · rw [if_pos hie]
          refine ⟨p, k, rfl, ?_⟩
          apply leafBound; left; omega
        · rw [if_neg hie]
          refine ⟨_, _, rfl, ?_⟩
          rw [List.length_map]; apply leafBound; left; omega
      rw [if_neg hk2]
      by_cases hk3 : key = "scale".toList
      · rw [if_pos hk3]
        refine Or.inr ⟨not_repeatOverflow_of_key hext (by rw [hk3]; decide), ?_⟩
        by_cases hie : ds.isEmpty = true
        · rw [if_pos hie]
          refine ⟨p, k, rfl, ?_⟩
          apply leafBound; left; omega
        · rw [if_neg hie]
          refine ⟨_, _, rfl, ?_⟩
          rw [List.length_map]; apply leafBound; left; omega
      rw [if_neg hk3]
      by_cases hk4 : key = "offset".toList
      · rw [if_pos hk4]
        refine Or.inr ⟨not_repeatOverflow_of_key hext (by rw [hk4]; decide), ?_⟩
        by_cases hie : ds.isEmpty = true
        · rw [if_pos hie]
          refine ⟨p, k, rfl, ?_⟩
          apply leafBound; left; omega
        · rw [if_neg hie]
          refine ⟨_, _, rfl, ?_⟩
          rw [List.length_map]; apply leafBound; left; omega
      rw [if_neg hk4]
      by_cases hk5 : key = "mirror".toList
      · rw [if_pos hk5]
        refine Or.inr ⟨not_repeatOverflow_of_key hext (by rw [hk5]; decide),
          _, _, rfl, ?_⟩
        simp only [List.length_append, List.length_reverse, List.length_dropLast]
        apply leafBound; left; omega
      rw [if_neg hk5]
      by_cases hk6 : key = "repeat".toList
      · rw [if_pos hk6]
        rw [hk6] at hext
        by_cases hie : ds.isEmpty = true
        · rw [if_pos hie]
          right
          have hdsnil : ds = [] := by
            cases ds with
            | nil => rfl
            | cons c cs => exact absurd hie (by simp)
          refine ⟨?_, p, k, rfl, ?_⟩
          · rintro ⟨⟨ds', hds', hne', -⟩, -⟩
            rw [hext] at hds'
            have : ds = ds' := congrArg Prod.snd (Option.some.inj hds')
            exact hne' (by rw [← this, hdsnil])
          · apply leafBound; left; omega
        · rw [if_neg hie]
          dsimp only
          have hdsne : ds ≠ [] := by
            intro h; rw [h] at hie; exact hie rfl
          by_cases hbig : 2 ^ 32 ≤ parseNatDigits ds ∧ p ≠ []
          · rw [if_pos hbig]
            exact Or.inl ⟨⟨⟨ds, hext, hdsne, hbig.1⟩, hbig.2⟩, rfl⟩
          · rw [if_neg hbig]
            right
            refine ⟨?_, _, _, rfl, ?_⟩
            · rintro ⟨⟨ds', hds', -, hb⟩, hpne⟩
              rw [hext] at hds'
              have hds2 : ds = ds' := congrArg Prod.snd (Option.some.inj hds')
              exact hbig ⟨by rw [hds2]; exact hb, hpne⟩
            · rw [length_flatMap_replicate, if_neg hie]
              apply leafBound; right; exact Nat.le_refl _
      rw [if_neg hk6]
      by_cases hk7 : key = "quantize".toList
      · rw [if_pos hk7]
        refine Or.inr ⟨not_repeatOverflow_of_key hext (by rw [hk7]; decide), ?_⟩
        by_cases hie : ds.isEmpty = true
        · rw [if_pos hie]
          refine ⟨p, k, rfl, ?_⟩
          apply leafBound; left; omega
        · rw [if_neg hie]
          refine ⟨_, _, rfl, ?_⟩
          rw [List.length_map]; apply leafBound; left; omega
      rw [if_neg hk7]
      by_cases hk8 : key = "reverse".toList
      · rw [if_pos hk8]
        refine Or.inr ⟨not_repeatOverflow_of_key hext (by rw [hk8]; decide),
          _, _, rfl, ?_⟩
        rw [List.length_reverse]; apply leafBound; left; omega
      rw [if_neg hk8]
      by_cases hk9 : key = "rotate".toList
      · rw [if_pos hk9]
        refine Or.inr ⟨not_repeatOverflow_of_key hext (by rw [hk9]; decide), ?_⟩
        by_cases hlen : p.length ≤ 1
        · rw [if_pos hlen]
          exact ⟨p, k, rfl,
            leafBound (Or.inl (show p.length ≤ 2 * p.length by omega))⟩
        · rw [if_neg hlen]
          refine ⟨_, _, rfl, ?_⟩
          simp only [List.length_append, List.length_drop, List.length_take]
          apply leafBound; left
          have hmod : ∀ (st : Nat), (st % p.length + p.length) % p.length < p.length :=
            fun st => Nat.mod_lt _ (by omega)
          have := hmod (match (if ds.isEmpty = true then none
              else some (parseNatDigits ds)) with
            | none => 1
            | some q => if q = 0 then 1 else q)
          omega
      rw [if_neg hk9]
      by_cases hk10 : key = "sparse".toList
      · rw [if_pos hk10]
        refine Or.inr ⟨not_repeatOverflow_of_key hext (by rw [hk10]; decide),
          _, _, rfl, ?_⟩
        rw [sparseGo_length]; apply leafBound; left; omega
      rw [if_neg hk10]
      by_cases hk11 : key = "interleave".toList
      · rw [if_pos hk11]
        refine Or.inr ⟨not_repeatOverflow_of_key hext (by rw [hk11]; decide),
          _, _, rfl, ?_⟩
        rw [length_flatMap_pair]; apply leafBound; left; omega
      rw [if_neg hk11]
      exact Or.inr ⟨not_repeatOverflow_of_key hext hk6, p, k, rfl,
        leafBound (Or.inl (show p.length ≤ 2 * p.length by omega))⟩

/-- C10 (counterexample): the exported `transformPattern` is not total
at the public interface — `repeat` with the parameter 4294967296
(`2 ^ 32`, an invalid array length) on the one-note sequence evaluates
`Array(4294967296)` and throws a `RangeError` to the caller, modelled
by the `none` result. -/
theorem c10_transform_counterexample :
    transformPattern (fun _ => 0) 0 ("repeat4294967296".toList)
      [Step.note 1] = none := by
  decide

/-- Integral numbers re-parse to themselves under `normalizePattern`'s
`parseInt` coercion. -/
theorem normalizeItem_lnum (n : Int) :
    normalizeItem (LooseVal.lnum n) = LooseVal.lnum n := by
  unfold normalizeItem
  rw [if_neg (by simp)]
  simp only [jsParseIntLoose, jsParseIntChars_intRepr]

theorem normalizeItem_lstr (s : List Char) :
    normalizeItem (LooseVal.lstr s) =
      if s = ['-'] then LooseVal.lstr ['-']
      else
        match jsParseIntChars s with
        | some n => LooseVal.lnum n
        | none => LooseVal.lstr s := by
  unfold normalizeItem jsParseIntLoose
  by_cases hd : s = ['-']
  · subst hd
    rw [if_pos (by simp), if_pos rfl]
  · rw [if_neg (by simp [hd]), if_neg hd]

theorem normalizeItem_idem (v : LooseVal) :
    normalizeItem (normalizeItem v) = normalizeItem v := by
  cases v with
  | lnum n => rw [normalizeItem_lnum, normalizeItem_lnum]
  | lnan => decide
  | lnull => decide
  | lundef => decide
  | lstr s =>
      by_cases hd : s = ['-']
      · subst hd; decide
      · rw [normalizeItem_lstr, if_neg hd]
        cases hp : jsParseIntChars s with
        | none =>
            dsimp only
            rw [normalizeItem_lstr, if_neg hd, hp]
        | some n =>
            dsimp only
            exact normalizeItem_lnum n

/-- C2 (amended): `normalizePattern` maps the rest symbol, `null` and
`undefined` to the rest symbol and numeric-looking strings to parsed
notes, but returns every other value (non-numeric strings, `NaN`)
unchanged rather than as a rest; on safe-integer values (where the
stringify/parse pair is exact — beyond `2 ^ 53` `parseInt` rounds, and
beyond `10 ^ 21` `String` prints exponential notation) it is
idempotent and integral notes are fixed points. -/
theorem c2_normalize_amended :
    (∀ (l : List LooseVal), (∀ v ∈ l, safeLooseVal v) →
      normalizePattern (normalizePattern l) = normalizePattern l) ∧
    (∀ (n : Int), jsSafeInt n →
      normalizeItem (LooseVal.lnum n) = LooseVal.lnum n) ∧
    normalizeItem LooseVal.lnull = LooseVal.lstr ['-'] ∧
    normalizeItem LooseVal.lundef = LooseVal.lstr ['-'] ∧
    normalizeItem LooseVal.lnan = LooseVal.lnan ∧
    (∀ (s : List Char), s ≠ ['-'] → jsParseIntChars s = none →
      normalizeItem (LooseVal.lstr s) = LooseVal.lstr s) ∧
    (∀ (s : List Char) (n : Int), s ≠ ['-'] → jsParseIntChars s = some n →
      jsSafeInt n → normalizeItem (LooseVal.lstr s) = LooseVal.lnum n) ∧
    normalizeItem (LooseVal.lstr ['-']) = LooseVal.lstr ['-'] := by
  refine ⟨?_, fun n _ => normalizeItem_lnum n, by decide, by decide, by decide,
    ?_, ?_, by decide⟩
  · intro l hl
    unfold normalizePattern
    induction l with
    | nil => rfl
    | cons v vs ih =>
        simp only [List.map_cons, normalizeItem_idem,
          ih (fun x hx => hl x (List.mem_cons_of_mem v hx))]
  · intro s hd hp
    rw [normalizeItem_lstr, if_neg hd, hp]
  · intro s n hd hp _
    rw [normalizeItem_lstr, if_neg hd, hp]

/-- C2 (witness for the amended theorem): concrete safe values — the
note 7, the non-numeric string and `null` — satisfy the safety
hypotheses, the list of them is a normalization fixed point after one
pass, 42 is a fixed point, and the string of 12 parses to the note 12. -/
theorem c2_normalize_witness :
    normalizePattern (normalizePattern
      [LooseVal.lnum 7, LooseVal.lstr ("abc".toList), LooseVal.lnull]) =
      normalizePattern
        [LooseVal.lnum 7, LooseVal.lstr ("abc".toList), LooseVal.lnull] ∧
    normalizeItem (LooseVal.lnum 42) = LooseVal.lnum 42 ∧
    normalizeItem (LooseVal.lstr ("abc".toList)) =
      LooseVal.lstr ("abc".toList) ∧
    normalizeItem (LooseVal.lstr ("12".toList)) = LooseVal.lnum 12 := by
  have h := c2_normalize_amended
  have hsafe : ∀ v ∈ [LooseVal.lnum 7, LooseVal.lstr ("abc".toList),
      LooseVal.lnull], safeLooseVal v := by
    intro v hv
    simp only [List.mem_cons, List.not_mem_nil, or_false] at hv
    rcases hv with rfl | rfl | rfl
    · exact (by decide : jsSafeInt 7)
    · exact Or.inl (by decide)
    · exact trivial
  exact ⟨h.1 _ hsafe, h.2.1 42 (by decide),
    h.2.2.2.2.2.1 _ (by decide) (by decide),
    h.2.2.2.2.2.2.1 _ 12 (by decide) (by decide) (by decide)⟩

/-- C2 (counterexample): the non-numeric string value `"abc"` is
returned unchanged by `normalizePattern`, not mapped to the rest
symbol as the claim states. -/
theorem c2_normalize_counterexample :
    normalizePattern [LooseVal.lstr ("abc".toList)] =
      [LooseVal.lstr ("abc".toList)] ∧
    normalizePattern [LooseVal.lstr ("abc".toList)] ≠
      [LooseVal.lstr ['-']] := by
  exact ⟨by decide, by decide⟩

/-- A `value*count` token whose count part is missing, empty, not a
parseable integer, or non-positive once parsed. -/
def invalidRepeatToken (t : List Char) : Prop :=
  match t.splitOn '*' with
  | v :: r :: _ =>
      v = [] ∨ r = [] ∨ jsParseIntChars r = none ∨
        ∃ c, jsParseIntChars r = some c ∧ c ≤ 0
  | _ => True

/-- C6 (amended): a direct-repeat or group-repeat token whose count
part is missing or does not `parseInt` to a positive integer expands
to the empty sequence (a fractional count text such as `2.5` is
instead truncated by `parseInt` and does repeat). -/
theorem c6_invalid_count_amended :
    ∀ (t : List Char) (cfg : Config) (rng : Nat → ℚ) (k : Nat),
      invalidRepeatToken t →
      handleDirectRepetition t cfg = [] ∧
      handleGroupWithRepeat rng t cfg k = ([], k) := by
  intro t cfg rng k h
  unfold invalidRepeatToken at h
  unfold handleDirectRepetition handleGroupWithRepeat
  cases hsp : t.splitOn '*' with
  | nil => exact ⟨rfl, rfl⟩
  | cons v rest =>
      cases rest with
      | nil => exact ⟨rfl, rfl⟩
      | cons r rest2 =>
          rw [hsp] at h
          dsimp only
          rcases h with h | h | h | ⟨c, hc, hcle⟩
          · subst h; constructor <;> simp
          · subst h; constructor <;> simp
          · by_cases hve : (v.isEmpty || r.isEmpty) = true
            · constructor <;> simp [hve]
            · constructor <;> simp [hve, h]
          · by_cases hve : (v.isEmpty || r.isEmpty) = true
            · constructor <;> simp [hve]
            · constructor <;> simp [hve, hc, hcle]

/-- C6 (counterexample): the direct-repeat token `3*2.5` has the
non-integer count text `2.5`, yet it expands to two notes — `parseInt`
truncates the count to 2 — rather than to the empty sequence. -/
theorem c6_invalid_count_counterexample :
    handleDirectRepetition ("3*2.5".toList) defaultConfig =
      [Step.note 3, Step.note 3] ∧
    handleDirectRepetition ("3*2.5".toList) defaultConfig ≠ [] := by
  exact ⟨by decide, by decide⟩

/-- C6 (witness): the token `3*0` with count 0 expands to nothing on
both the direct-repeat and the group-repeat path. -/
theorem c6_invalid_count_witness :
    invalidRepeatToken ("3*0".toList) ∧
    handleDirectRepetition ("3*0".toList) defaultConfig = [] ∧
    handleGroupWithRepeat (fun _ => 0) "3*0".toList defaultConfig 0 =
      ([], 0) := by
  have hinv : invalidRepeatToken ("3*0".toList) := by
    unfold invalidRepeatToken
    exact Or.inr (Or.inr (Or.inr ⟨0, by decide, by decide⟩))
  obtain ⟨h1, h2⟩ :=
    c6_invalid_count_amended ("3*0".toList) defaultConfig (fun _ => 0) 0 hinv
  exact ⟨hinv, h1, h2⟩

/-- The options of claim C4: the defaults with group probability 0
(the non-grouped path). -/
def c4opts : RandOptions := ⟨16, 1, 99, 3/10, 0, 2/5⟩

theorem randLoop_stop (rng : Nat → ℚ) (o : RandOptions) (i k : Nat)
    (h : ¬ i < o.length) : randLoop rng o i k = ([], k) := by
  rw [randLoop, dif_neg h]

theorem noteVal_c4_bound {q : ℚ} (h0 : 0 ≤ q) (h1 : q < 1) :
    ∃ v : Int, noteVal c4opts q = Step.note v ∧ 1 ≤ v ∧ v ≤ 99 := by
  refine ⟨Int.floor (q * ((99 : Int) : ℚ)) + 1, ?_, ?_, ?_⟩
  · unfold noteVal c4opts
    norm_num
  · have : (0 : Int) ≤ Int.floor (q * ((99 : Int) : ℚ)) :=
      Int.floor_nonneg.mpr (by positivity)
    omega
  · have : Int.floor (q * ((99 : Int) : ℚ)) < 99 := by
      apply Int.floor_lt.mpr
      push_cast
      nlinarith
    omega

theorem floor_mul3_le {q : ℚ} (h0 : 0 ≤ q) (h1 : q < 1) :
    (Int.floor (q * 3)).toNat ≤ 2 := by
  have : Int.floor (q * 3) < 3 := by
    apply Int.floor_lt.mpr
    push_cast
    nlinarith
  omega

theorem randLoop_spec (rng : Nat → ℚ) (hr : ∀ n, 0 ≤ rng n ∧ rng n < 1) :
    ∀ (m i k : Nat), 16 - i ≤ m → i < 16 →
      16 ≤ i + (randLoop rng c4opts i k).1.length ∧
      i + (randLoop rng c4opts i k).1.length ≤ 19 ∧
      ∀ x ∈ (randLoop rng c4opts i k).1,
        x = Step.rest ∨ ∃ v : Int, x = Step.note v ∧ 1 ≤ v ∧ v ≤ 99 := by
  intro m
  induction m with
  | zero => intro i k hm hi; omega
  | succ m ih =>
      intro i k hm hi
      rw [randLoop, dif_pos (show i < c4opts.length from hi)]
      by_cases hrest : rng k < c4opts.restProbability
      · -- rest branch: one rest, advance by one
        rw [if_pos hrest]
        dsimp only
        by_cases h16 : i + 1 < 16
        · obtain ⟨ha, hb, hc⟩ := ih (i + 1) (k + 1) (by omega) h16
          refine ⟨by simp; omega, by simp; omega, ?_⟩
          intro x hx
          rcases List.mem_cons.mp hx with rfl | hx
          · exact Or.inl rfl
          · exact hc x hx
        · rw [randLoop_stop rng c4opts (i + 1) (k + 1) h16]
          refine ⟨by simp; omega, by simp; omega, ?_⟩
          intro x hx
          rcases List.mem_cons.mp hx with rfl | hx
          · exact Or.inl rfl
          · cases hx
      · rw [if_neg hrest]
        have hgroup : ¬ (rng k < c4opts.restProbability + c4opts.groupProbability) := by
          have he : c4opts.restProbability + c4opts.groupProbability =
              c4opts.restProbability := by norm_num [c4opts]
          rw [he]; exact hrest
        rw [if_neg hgroup]
        obtain ⟨v, hv, hv1, hv99⟩ :=
          noteVal_c4_bound (hr (k + 1)).1 (hr (k + 1)).2
        by_cases hrep : rng (k + 2) < c4opts.repetitionProbability
        · -- repeated note: 2 to 4 copies, advance by as many
          rw [if_pos hrep]
          dsimp only
          rw [hv]
          have hfl := floor_mul3_le (hr (k + 3)).1 (hr (k + 3)).2
          by_cases h16 : i + ((Int.floor (rng (k + 3) * 3)).toNat + 2) < 16
          · obtain ⟨ha, hb, hc⟩ :=
              ih (i + ((Int.floor (rng (k + 3) * 3)).toNat + 2)) (k + 4)
                (by omega) h16
            refine ⟨?_, ?_, ?_⟩
            · simp only [List.length_append, List.length_replicate]
              omega
            · simp only [List.length_append, List.length_replicate]
              omega
            · intro x hx
              rcases List.mem_append.mp hx with hx | hx
              · exact Or.inr ⟨v, List.eq_of_mem_replicate hx, hv1, hv99⟩
              · exact hc x hx
          · rw [randLoop_stop rng c4opts _ (k + 4) h16]
            refine ⟨?_, ?_, ?_⟩
            · simp only [List.length_append, List.length_replicate,
                List.length_nil]
              omega
            · simp only [List.length_append, List.length_replicate,
                List.length_nil]
              omega
            · intro x hx
              rcases List.mem_append.mp hx with hx | hx
              · exact Or.inr ⟨v, List.eq_of_mem_replicate hx, hv1, hv99⟩
              · cases hx
        · -- single note
          rw [if_neg hrep]
          dsimp only
          rw [hv]
          by_cases h16 : i + 1 < 16
          · obtain ⟨ha, hb, hc⟩ := ih (i + 1) (k + 3) (by omega) h16
            refine ⟨by simp; omega, by simp; omega, ?_⟩
            intro x hx
            rcases List.mem_cons.mp hx with rfl | hx
            · exact Or.inr ⟨v, rfl, hv1, hv99⟩
            · exact hc x hx
          · rw [randLoop_stop rng c4opts (i + 1) (k + 3) h16]
            refine ⟨by simp; omega, by simp; omega, ?_⟩
            intro x hx
            rcases List.mem_cons.mp hx with rfl | hx
            · exact Or.inr ⟨v, rfl, hv1, hv99⟩
            · cases hx

/-- C4 (amended): on the non-grouped path (group probability 0, other
options default) `randomSequence` returns between 16 and 19 elements —
a repetition taken near the end of the sequence can overshoot the
requested length by up to 3 — and every element is a rest or a note
within `[1, 99]`. -/
theorem c4_random_sequence_amended :
    ∀ (rng : Nat → ℚ) (k : Nat), (∀ n, 0 ≤ rng n ∧ rng n < 1) →
      16 ≤ (createRandomPattern rng k c4opts).1.length ∧
      (createRandomPattern rng k c4opts).1.length ≤ 19 ∧
      ∀ x ∈ (createRandomPattern rng k c4opts).1,
        x = Step.rest ∨ ∃ v : Int, x = Step.note v ∧ 1 ≤ v ∧ v ≤ 99 := by
  intro rng k hr
  obtain ⟨ha, hb, hc⟩ := randLoop_spec rng hr 16 0 k (by omega) (by omega)
  exact ⟨by unfold createRandomPattern; omega,
    by unfold createRandomPattern; omega,
    by unfold createRandomPattern; exact hc⟩

/-- The random stream of the C4 counterexample: draw 15 is ½ (forcing
the note branch at step 16), all other draws are 0. -/
def rngC4 : Nat → ℚ := fun n => if n = 15 then 1/2 else 0

/-- The run of the counterexample stream: from position `15 - j` the
loop produces `j` rests followed by the twice-repeated note 1. -/
theorem c4cexLoop :
    ∀ (j : Nat), j ≤ 15 →
      randLoop rngC4 c4opts (15 - j) (15 - j) =
        (List.replicate j Step.rest ++ [Step.note 1, Step.note 1], 19) := by
  intro j
  induction j with
  | zero =>
      intro _
      have h15 : (15 : Nat) < c4opts.length := by show (15 : Nat) < 16; omega
      rw [show (15 : Nat) - 0 = 15 from rfl, randLoop, dif_pos h15]
      rw [if_neg (by norm_num [rngC4, c4opts])]
      rw [if_neg (by norm_num [rngC4, c4opts])]
      rw [if_pos (by norm_num [rngC4, c4opts])]
      have hfl : (Int.floor (rngC4 (15 + 3) * 3)).toNat + 2 = 2 := by
        norm_num [rngC4]
      have hnv : noteVal c4opts (rngC4 (15 + 1)) = Step.note 1 := by
        norm_num [noteVal, rngC4, c4opts]
      dsimp only
      rw [hfl, hnv, randLoop_stop rngC4 c4opts _ _ (by show ¬ 15 + 2 < 16; omega)]
      simp
  | succ j ih =>
      intro hj
      have hi : 15 - (j + 1) < c4opts.length := by show 15 - (j + 1) < 16; omega
      rw [randLoop, dif_pos hi]
      rw [if_pos (show rngC4 (15 - (j + 1)) < c4opts.restProbability by
        unfold rngC4
        rw [if_neg (by omega)]
        show (0 : ℚ) < 3/10
        norm_num)]
      dsimp only
      have harg : 15 - (j + 1) + 1 = 15 - j := by omega
      rw [harg, ih (by omega)]
      simp [List.replicate_succ]

/-- C4 (counterexample): with this random stream the non-grouped path
returns 17 elements — 15 rests and a note repeated twice from position
15 — so `randomSequence({length: 16})` does not always have length
exactly 16. -/
theorem c4_random_sequence_counterexample :
    (createRandomPattern rngC4 0 c4opts).1.length = 17 ∧ (17 : Nat) ≠ 16 := by
  have h := c4cexLoop 15 (by omega)
  rw [show (15 : Nat) - 15 = 0 from rfl] at h
  constructor
  · unfold createRandomPattern
    rw [h]
    simp
  · omega

/-- C4 (witness for the amended theorem): the all-zero stream
satisfies the random-source contract and yields at least 16
elements. -/
theorem c4_random_sequence_witness :
    (∀ n : Nat, 0 ≤ (fun _ => (0 : ℚ)) n ∧ (fun _ => (0 : ℚ)) n < 1) ∧
    16 ≤ (createRandomPattern (fun _ => 0) 0 c4opts).1.length :=
  ⟨fun _ => ⟨le_refl 0, by norm_num⟩,
   (c4_random_sequence_amended (fun _ => 0) 0
     (fun _ => ⟨le_refl 0, by norm_num⟩)).1⟩

end MonzAV
